import Mathlib

/-!
Shallow embedding of the gitlab-embedding pipeline (webhook-driven code
embedding service) and proofs about its specification claims.

File contents are modelled as lists of character codes (`List Nat`), so
that the character-level operations of the source (null-byte scan,
control-character counting, splitting on newline code 10) are exact.
Vectors of the embedding model are `List Int`; timestamps are `Nat`.
-/

namespace GitlabEmbedding

/-! ## Data model (src/models/embedding.ts) -/

/-- A source file fetched from the repository provider. -/
structure CodeFile where
  path : String
  content : List Nat
  language : String
  lastModified : Nat
deriving Repr, DecidableEq

/-- One stored embedding row, keyed by (projectId, filePath). -/
structure CodeEmbedding where
  projectId : Nat
  repositoryUrl : String
  filePath : String
  content : List Nat
  embedding : List Int
  language : String
  commitId : String
  branch : String
  createdAt : Nat
  updatedAt : Nat
deriving Repr, DecidableEq

/-- Per-project metadata row, keyed by projectId. -/
structure ProjectMetadata where
  projectId : Nat
  name : String
  description : String
  url : String
  defaultBranch : String
  lastProcessedCommit : String
  lastProcessedAt : Nat
deriving Repr, DecidableEq

/-- Append-only provenance record of one processing run. -/
structure EmbeddingBatch where
  projectId : Nat
  commitId : String
  branch : String
  files : List CodeFile
  embeddings : List CodeEmbedding
  createdAt : Nat
deriving Repr, DecidableEq

/-! ## Content filter (EmbeddingService.isBinaryContent and the
eligibility guard of EmbeddingService.generateEmbeddings) -/

/-- A character code is non-printable when below 32 and not tab (9),
newline (10) or carriage return (13); mirrors the filter predicate in
isBinaryContent. -/
def isNonPrintable (c : Nat) : Bool :=
  c < 32 && c != 9 && c != 10 && c != 13

/-- Binary-content heuristic of EmbeddingService.isBinaryContent: a null
byte means binary; otherwise binary when non-printable characters exceed
10 percent of the length.  The source compares the count against the
floating-point product length * 0.1; for every length up to the 100000
eligibility ceiling that comparison coincides with the exact rational
comparison 10 * count > length (checked exhaustively), which is what we
use here. -/
def isBinaryContent (content : List Nat) : Bool :=
  content.contains 0 ||
    decide (content.length < 10 * (content.filter isNonPrintable).length)

/-- Eligibility guard of generateEmbeddings: a file is skipped when its
content is empty (falsy), longer than 100000 characters, or classified
binary; eligible is the negation. -/
def isEligible (content : List Nat) : Bool :=
  !content.isEmpty && !(decide (content.length > 100000)) && !isBinaryContent content

/-! ## Chunking (EmbeddingService.chunkCodeFile) -/

/-- Split a list of character codes at newline (code 10), exactly as the
JavaScript split on the newline string behaves: the result is always
nonempty, and a trailing newline yields a trailing empty line. -/
def splitNl : List Nat → List (List Nat)
  | [] => [[]]
  | c :: rest =>
    if c = 10 then [] :: splitNl rest
    else
      match splitNl rest with
      | [] => [[c]]
      | l :: ls => (c :: l) :: ls

/-- The loop of chunkCodeFile over the split lines: `acc` is the chunk
being accumulated, `idx` the next chunk index.  When the accumulated
chunk plus the next line (and its newline) would exceed `maxSize`, the
accumulated chunk is emitted and a fresh chunk starts with the line;
otherwise the line is appended.  A final nonempty chunk is emitted at the
end. -/
def chunkLines (file : CodeFile) (maxSize : Nat) :
    List (List Nat) → List Nat → Nat → List CodeFile
  | [], acc, idx =>
    if acc.isEmpty then []
    else [{ file with path := file.path ++ "#chunk" ++ toString idx, content := acc }]
  | line :: rest, acc, idx =>
    if maxSize < acc.length + line.length + 1 then
      { file with path := file.path ++ "#chunk" ++ toString idx, content := acc } ::
        chunkLines file maxSize rest (line ++ [10]) (idx + 1)
    else
      chunkLines file maxSize rest (acc ++ line ++ [10]) idx

/-- EmbeddingService.chunkCodeFile: files with empty content or content
not exceeding maxChunkSize are returned whole; otherwise the content is
split at line boundaries by the loop above. -/
def chunkCodeFile (file : CodeFile) (maxChunkSize : Nat) : List CodeFile :=
  if file.content.isEmpty || file.content.length ≤ maxChunkSize then [file]
  else chunkLines file maxChunkSize (splitNl file.content) [] 0

/-! ## Storage engine (DatabaseService)

The embeddings relation is a list of rows with the UNIQUE(project_id,
file_path) key.  The ON CONFLICT DO UPDATE clause of the source updates
content, embedding, language, commit_id, branch and updated_at on the
existing row — and nothing else, so repository_url and created_at of an
existing row are retained.  Both the pgvector and the JSONB branch of
the source issue the same statement up to the representation of the
embedding payload, so a single model covers both. -/

/-- The key match of the UNIQUE(project_id, file_path) constraint. -/
def sameKey (a b : CodeEmbedding) : Bool :=
  a.projectId == b.projectId && a.filePath == b.filePath

/-- The DO UPDATE SET list applied to an existing row `s` from an
incoming row `r`: content, embedding, language, commit_id, branch and
updated_at come from `r`; every other column of `s` is untouched. -/
def applyConflictUpdate (s r : CodeEmbedding) : CodeEmbedding :=
  { s with
    content := r.content
    embedding := r.embedding
    language := r.language
    commitId := r.commitId
    branch := r.branch
    updatedAt := r.updatedAt }

/-- INSERT ... ON CONFLICT (project_id, file_path) DO UPDATE over the
embeddings relation. -/
def upsertRow (r : CodeEmbedding) : List CodeEmbedding → List CodeEmbedding
  | [] => [r]
  | s :: t =>
    if sameKey s r then applyConflictUpdate s r :: t
    else s :: upsertRow r t

/-- DatabaseService.saveEmbedding: a single upsert, outside any
transaction. -/
def saveEmbedding (r : CodeEmbedding) (table : List CodeEmbedding) : List CodeEmbedding :=
  upsertRow r table

/-- A database client with transaction state: `committed` is the durable
embeddings relation, `pending` is the uncommitted view inside an open
transaction (none when no transaction is open). -/
structure PgClient where
  committed : List CodeEmbedding
  pending : Option (List CodeEmbedding)
deriving Repr, DecidableEq

/-- BEGIN: open a transaction whose working view starts from the
committed state. -/
def txBegin (c : PgClient) : PgClient :=
  { c with pending := some c.committed }

/-- COMMIT: make the pending view durable and close the transaction. -/
def txCommit (c : PgClient) : PgClient :=
  { committed := c.pending.getD c.committed, pending := none }

/-- ROLLBACK: discard the pending view and close the transaction. -/
def txRollback (c : PgClient) : PgClient :=
  { c with pending := none }

/-- Run the per-row INSERT statements of saveEmbeddings in order inside
the open transaction.  `fails` is the failure oracle for an individual
row write (for instance a constraint or serialization error raised by
the store); the loop stops at the first failing row.  The Bool of the
result records whether an error was raised. -/
def runUpserts (fails : CodeEmbedding → Bool) :
    List CodeEmbedding → PgClient → PgClient × Bool
  | [], c => (c, false)
  | r :: rs, c =>
    if fails r then (c, true)
    else runUpserts fails rs
      { c with pending := some (upsertRow r (c.pending.getD c.committed)) }

/-- DatabaseService.saveEmbeddings: an empty batch returns at once;
otherwise BEGIN, upsert every row, COMMIT — and on any row failure
ROLLBACK and re-raise (the Bool of the result is the raised error). -/
def saveEmbeddings (fails : CodeEmbedding → Bool) (rows : List CodeEmbedding)
    (c : PgClient) : PgClient × Bool :=
  if rows.isEmpty then (c, false)
  else
    match runUpserts fails rows (txBegin c) with
    | (c2, false) => (txCommit c2, false)
    | (c2, true) => (txRollback c2, true)

/-- Comparison used by ORDER BY updated_at DESC: row `a` may come before
row `b` when its update timestamp is at least that of `b`. -/
def updatedAtDesc (a b : CodeEmbedding) : Bool :=
  b.updatedAt ≤ a.updatedAt

/-- DatabaseService.searchSimilarCode.  `isVector` is the capability
probe (the information_schema query on the embedding column type);
`vectorRank` abstracts the pgvector cosine-distance ranking executed by
the store when native vector support is present.  When support is
absent, the fallback query filters by project, orders by updated_at
descending and takes `limit` rows; the query embedding is not consulted. -/
def searchSimilarCode
    (isVector : Bool)
    (vectorRank : List CodeEmbedding → Nat → List Int → Nat → List CodeEmbedding)
    (table : List CodeEmbedding) (projectId : Nat) (embedding : List Int)
    (limit : Nat) : List CodeEmbedding :=
  if isVector then vectorRank table projectId embedding limit
  else
    (((table.filter (fun r => r.projectId == projectId)).mergeSort updatedAtDesc).take limit)

/-- DatabaseService.searchSimilarCodeAcrossProjects: as above but with no
project filter in either branch. -/
def searchSimilarCodeAcrossProjects
    (isVector : Bool)
    (vectorRankAll : List CodeEmbedding → List Int → Nat → List CodeEmbedding)
    (table : List CodeEmbedding) (embedding : List Int)
    (limit : Nat) : List CodeEmbedding :=
  if isVector then vectorRankAll table embedding limit
  else ((table.mergeSort updatedAtDesc).take limit)

/-- Upsert of the projects relation, keyed by project_id (the ON
CONFLICT (project_id) DO UPDATE statement shared by
updateProjectMetadata and saveProjectMetadata). -/
def upsertMetaRow (m : ProjectMetadata) : List ProjectMetadata → List ProjectMetadata
  | [] => [m]
  | s :: t =>
    if s.projectId == m.projectId then m :: t
    else s :: upsertMetaRow m t

/-- DatabaseService.getProjectMetadata: the row of the given project, if
present. -/
def getProjectMetadata (projects : List ProjectMetadata) (projectId : Nat) :
    Option ProjectMetadata :=
  projects.find? (fun m => m.projectId == projectId)

/-! ## Embedding generator (EmbeddingService.generateEmbeddings)

The source walks the files in batches of five, skipping ineligible files
and calling the embedding model for the rest; Promise.all within a batch
preserves order and nulls are filtered out, so the resulting embedding
list is exactly the order-preserving image of the eligible files.  The
batching and the inter-batch delay affect timing only, so the model
walks the files in order; the external calls of a run are collected as
an explicit operation trace. -/

/-- Observable operations of one pipeline run: provider API project
lookups, repository tree fetches, embedding model calls and the three
kinds of storage write. -/
inductive Op where
  | getProject (projectId : Nat)
  | fetchFiles (projectId : Nat) (ref : String)
  | embedCall (content : List Nat)
  | writeEmbeddings (rows : List CodeEmbedding)
  | writeBatch (b : EmbeddingBatch)
  | writeMetadata (m : ProjectMetadata)
deriving Repr, DecidableEq

/-- The external collaborators of the pipeline: the repository provider
(project details and file tree) and the embedding model, together with
the current time. -/
structure Env where
  projectName : Nat → String
  projectDescription : Nat → String
  projectWebUrl : Nat → String
  projectDefaultBranch : Nat → String
  getAllFiles : Nat → String → List CodeFile
  embed : List Nat → List Int
  now : Nat

/-- EmbeddingService.generateEmbeddings: the embedding calls issued and
the rows produced, walking the files in order and dropping ineligible
ones. -/
def generateEmbeddings (env : Env) (files : List CodeFile) (projectId : Nat)
    (commitId : String) (branch : String) : List Op × List CodeEmbedding :=
  match files with
  | [] => ([], [])
  | f :: rest =>
    let tail := generateEmbeddings env rest projectId commitId branch
    if isEligible f.content then
      (Op.embedCall f.content :: tail.1,
        { projectId := projectId
          repositoryUrl := ""
          filePath := f.path
          content := f.content
          embedding := env.embed f.content
          language := f.language
          commitId := commitId
          branch := branch
          createdAt := env.now
          updatedAt := env.now } :: tail.2)
    else tail

/-! ## Event dispatcher (src/controllers/webhook.ts) -/

/-- The fields of a GitLab push event consumed by the pipeline. -/
structure PushEvent where
  after : String
  projectId : Nat
  ref : String
  projectWebUrl : String
deriving Repr, DecidableEq

/-- The fields of a GitLab merge-request event consumed by the pipeline;
`action` empty models an absent action (the source defaults it to the
empty string). -/
structure MergeRequestEvent where
  action : String
  projectId : Nat
  iid : Nat
  sourceBranch : String
  lastCommitId : String
  projectWebUrl : String
deriving Repr, DecidableEq

/-- The persisted state owned by the storage engine. -/
structure Db where
  projects : List ProjectMetadata
  embeddings : List CodeEmbedding
  batches : List EmbeddingBatch
deriving Repr, DecidableEq

/-- Effect of an operation on the persisted state: writes mutate their
relation, external calls leave the state unchanged. -/
def applyOp (db : Db) : Op → Db
  | Op.getProject _ => db
  | Op.fetchFiles _ _ => db
  | Op.embedCall _ => db
  | Op.writeEmbeddings rows =>
    { db with embeddings := rows.foldl (fun t r => upsertRow r t) db.embeddings }
  | Op.writeBatch b => { db with batches := db.batches ++ [b] }
  | Op.writeMetadata m => { db with projects := upsertMetaRow m db.projects }

/-- Effect of a sequence of operations, in order. -/
def applyOps (db : Db) : List Op → Db
  | [] => db
  | op :: rest => applyOps (applyOp db op) rest

/-- The all-zero commit sentinel GitLab sends for a ref deletion. -/
def zeroCommit : String := "0000000000000000000000000000000000000000"

/-- Strip the refs/heads/ lead of a push ref, as the source does with a
string replace. -/
def stripRefsHeads (ref : String) : String :=
  if ref.startsWith "refs/heads/" then ref.drop 11 else ref

/-- Resolve project metadata as the dispatcher does: an existing row is
used as is; otherwise the provider is asked for the project details and
a fresh record with an empty lastProcessedCommit is built (an API call
recorded in the trace, not a storage write). -/
def resolveMetadata (env : Env) (db : Db) (projectId : Nat) :
    List Op × ProjectMetadata :=
  match getProjectMetadata db.projects projectId with
  | some m => ([], m)
  | none =>
    ([Op.getProject projectId],
      { projectId := projectId
        name := env.projectName projectId
        description := env.projectDescription projectId
        url := env.projectWebUrl projectId
        defaultBranch := env.projectDefaultBranch projectId
        lastProcessedCommit := ""
        lastProcessedAt := env.now })

/-- The shared tail of both event handlers once they decide to proceed:
fetch all files at `refForFiles`, stop when none are found, generate
embeddings, stamp the repository URL on them, then save the embeddings,
append the batch record and update the project metadata — in that
order. -/
def processFiles (env : Env) (preOps : List Op) (meta : ProjectMetadata)
    (projectId : Nat) (commitId : String) (refForFiles : String)
    (branch : String) (webUrl : String) : List Op :=
  let files := env.getAllFiles projectId refForFiles
  let fetched := preOps ++ [Op.fetchFiles projectId refForFiles]
  if files.isEmpty then fetched
  else
    let gen := generateEmbeddings env files projectId commitId branch
    let rows := gen.2.map (fun r => { r with repositoryUrl := webUrl })
    let batch : EmbeddingBatch :=
      { projectId := projectId, commitId := commitId, branch := branch
        files := files, embeddings := rows, createdAt := env.now }
    let meta2 := { meta with lastProcessedCommit := commitId, lastProcessedAt := env.now }
    fetched ++ gen.1 ++
      [Op.writeEmbeddings rows, Op.writeBatch batch, Op.writeMetadata meta2]

/-- processPushEvent of src/controllers/webhook.ts as the operation trace
of the run: skip on the ref-deletion sentinel, skip when the recorded
lastProcessedCommit equals the incoming commit, otherwise process the
files at the incoming commit. -/
def processPushEvent (env : Env) (db : Db) (e : PushEvent) : List Op :=
  if e.after = zeroCommit then []
  else
    let rm := resolveMetadata env db e.projectId
    if rm.2.lastProcessedCommit = e.after then rm.1
    else
      processFiles env rm.1 rm.2 e.projectId e.after e.after
        (stripRefsHeads e.ref) e.projectWebUrl

/-- processMergeRequestEvent of src/controllers/webhook.ts as the
operation trace of the run: skip unless the action is open or update,
then process the files of the source branch.  The source performs no
lastProcessedCommit comparison on this path. -/
def processMergeRequestEvent (env : Env) (db : Db) (e : MergeRequestEvent) : List Op :=
  if e.action ≠ "open" ∧ e.action ≠ "update" then []
  else
    let rm := resolveMetadata env db e.projectId
    processFiles env rm.1 rm.2 e.projectId e.lastCommitId e.sourceBranch
      e.sourceBranch e.projectWebUrl

/-- Fetch operations of a trace. -/
def countFetches (ops : List Op) : Nat :=
  (ops.filter (fun op => match op with | Op.fetchFiles _ _ => true | _ => false)).length

/-- Embedding model calls of a trace. -/
def countEmbedCalls (ops : List Op) : Nat :=
  (ops.filter (fun op => match op with | Op.embedCall _ => true | _ => false)).length

/-- Whether an operation is a storage write (embedding upsert, batch
append or metadata update). -/
def isWriteOp : Op → Bool
  | Op.writeEmbeddings _ => true
  | Op.writeBatch _ => true
  | Op.writeMetadata _ => true
  | _ => false

/-- Storage writes of a trace (embedding upserts, batch appends and
metadata updates). -/
def countStorageWrites (ops : List Op) : Nat :=
  (ops.filter isWriteOp).length

/-- The storage-write subtrace of a trace, in order. -/
def writeOps (ops : List Op) : List Op :=
  ops.filter isWriteOp

/-! ## Search controller (src/controllers/search.ts) -/

/-- One item of the search response body: the fields searchCode copies
from a stored row.  The embedding column is deliberately not among
them. -/
structure SearchResultItem where
  projectId : Nat
  repositoryUrl : String
  filePath : String
  language : String
  content : List Nat
  commitId : String
  branch : String
  createdAt : Nat
deriving Repr, DecidableEq

/-- The projection searchCode applies to each retrieved row when
building the response. -/
def toSearchResultItem (r : CodeEmbedding) : SearchResultItem :=
  { projectId := r.projectId
    repositoryUrl := r.repositoryUrl
    filePath := r.filePath
    language := r.language
    content := r.content
    commitId := r.commitId
    branch := r.branch
    createdAt := r.createdAt }

/-- An HTTP response of the search endpoint: status code and result
items. -/
structure SearchResponse where
  status : Nat
  results : List SearchResultItem
deriving Repr, DecidableEq

/-- The retrieval step of searchCode: scoped search when a projectId is
given, global search otherwise. -/
def retrieveSimilar
    (isVector : Bool)
    (vectorRank : List CodeEmbedding → Nat → List Int → Nat → List CodeEmbedding)
    (vectorRankAll : List CodeEmbedding → List Int → Nat → List CodeEmbedding)
    (table : List CodeEmbedding)
    (queryEmbedding : List Int) (projectId : Option Nat) (limit : Nat) :
    List CodeEmbedding :=
  match projectId with
  | some p => searchSimilarCode isVector vectorRank table p queryEmbedding limit
  | none => searchSimilarCodeAcrossProjects isVector vectorRankAll table queryEmbedding limit

/-- searchCode of src/controllers/search.ts: reject an empty (falsy)
query with 400; embed the query; retrieve scoped or global similar code;
answer 404 with an empty result list when nothing matched, else 200 with
the projected rows. -/
def searchCode
    (isVector : Bool)
    (vectorRank : List CodeEmbedding → Nat → List Int → Nat → List CodeEmbedding)
    (vectorRankAll : List CodeEmbedding → List Int → Nat → List CodeEmbedding)
    (embedQuery : String → List Int)
    (table : List CodeEmbedding)
    (query : String) (projectId : Option Nat) (limit : Nat) : SearchResponse :=
  if query.isEmpty then { status := 400, results := [] }
  else
    let results :=
      retrieveSimilar isVector vectorRank vectorRankAll table (embedQuery query) projectId limit
    if results.isEmpty then { status := 404, results := [] }
    else { status := 200, results := results.map toSearchResultItem }

/-! ## Clone-based ingestion controller (repository controller) -/

/-- Numeric value of a hexadecimal digit character. -/
def hexDigitVal (c : Char) : Option Nat :=
  if '0' ≤ c ∧ c ≤ '9' then some (c.toNat - 48)
  else if 'a' ≤ c ∧ c ≤ 'f' then some (c.toNat - 87)
  else if 'A' ≤ c ∧ c ≤ 'F' then some (c.toNat - 55)
  else none

/-- The maximal leading run of hexadecimal digits of a character list,
accumulated into a value, with the count of digits consumed. -/
def parseHexDigits : List Char → Nat → Nat × Nat
  | [], acc => (acc, 0)
  | c :: rest, acc =>
    match hexDigitVal c with
    | some v =>
      let (value, used) := parseHexDigits rest (16 * acc + v)
      (value, used + 1)
    | none => (acc, 0)

/-- parseInt(s, 16) of JavaScript on the inputs of this program: the
value of the maximal leading run of hex digits, or none (NaN) when the
first character is not a hex digit. -/
def parseIntHex (s : List Char) : Option Nat :=
  match parseHexDigits s 0 with
  | (_, 0) => none
  | (value, _) => some value

/-- generateProjectIdFromPath of the repository controller: md5-hash the
path, keep the first eight hex characters of the digest (the substring
call, taken here on the character list), parse them as a hexadecimal
integer and reduce modulo 2147483647 (Math.abs is the identity on the
non-negative parse result).  The md5 digest itself is computed by the
external crypto library, abstracted here as the function argument
`md5hex`; a NaN parse result propagates as none. -/
def generateProjectIdFromPath (md5hex : String → String) (path : String) : Option Nat :=
  match parseIntHex ((md5hex path).data.take 8) with
  | none => none
  | some n => some (n % 2147483647)

/-! ## Concrete fixtures used by witnesses and counterexamples -/

/-- A small eligible source file ("hi"). -/
def fileHi : CodeFile :=
  { path := "a.py", content := [104, 105], language := "python", lastModified := 0 }

/-- A fixed environment: one project, one eligible file, a constant
embedding model. -/
def envFix : Env :=
  { projectName := fun _ => "proj"
    projectDescription := fun _ => ""
    projectWebUrl := fun _ => "https://git.example.test/g/proj"
    projectDefaultBranch := fun _ => "main"
    getAllFiles := fun _ _ => [fileHi]
    embed := fun _ => [1, 0]
    now := 7 }

/-- Metadata of project 1 with commit c1 already processed. -/
def metaFix : ProjectMetadata :=
  { projectId := 1, name := "proj", description := ""
    url := "https://git.example.test/g/proj", defaultBranch := "main"
    lastProcessedCommit := "c1", lastProcessedAt := 3 }

/-- A stored state that already records commit c1 for project 1. -/
def dbFix : Db := { projects := [metaFix], embeddings := [], batches := [] }

/-- A merge-request update event whose last commit is the already
processed c1. -/
def mrFix : MergeRequestEvent :=
  { action := "update", projectId := 1, iid := 4, sourceBranch := "feature"
    lastCommitId := "c1", projectWebUrl := "https://git.example.test/g/proj" }

/-- A push event re-delivering the already processed commit c1. -/
def pushFixOld : PushEvent :=
  { after := "c1", projectId := 1, ref := "refs/heads/main"
    projectWebUrl := "https://git.example.test/g/proj" }

/-- A push event for a fresh commit c2. -/
def pushFixNew : PushEvent :=
  { after := "c2", projectId := 1, ref := "refs/heads/main"
    projectWebUrl := "https://git.example.test/g/proj" }

/-- A push event carrying the ref-deletion sentinel. -/
def pushFixZero : PushEvent :=
  { after := zeroCommit, projectId := 1, ref := "refs/heads/main"
    projectWebUrl := "https://git.example.test/g/proj" }

/-- First write of the round-trip pair: key (1, f.py). -/
def rowA : CodeEmbedding :=
  { projectId := 1, repositoryUrl := "https://one.example.test", filePath := "f.py"
    content := [97], embedding := [1], language := "python"
    commitId := "c1", branch := "main", createdAt := 1, updatedAt := 1 }

/-- Second write of the round-trip pair: same key, different content,
repository URL and timestamps. -/
def rowB : CodeEmbedding :=
  { projectId := 1, repositoryUrl := "https://two.example.test", filePath := "f.py"
    content := [98], embedding := [2], language := "python"
    commitId := "c2", branch := "main", createdAt := 2, updatedAt := 2 }

/-- A 20000-character file consisting of one single line. -/
def fileBig : CodeFile :=
  { path := "large.txt", content := List.replicate 20000 97
    language := "plaintext", lastModified := 0 }

/-- A 20000-character content of 200 short lines: 199 lines of 99
characters and a final line of 100 characters. -/
def contentRep : List Nat :=
  (List.replicate 199 (List.replicate 99 98 ++ [10])).flatten ++ List.replicate 100 98

/-- A 20000-character file whose lines all fit well under the chunk
threshold. -/
def fileRep : CodeFile :=
  { path := "wide.txt", content := contentRep, language := "plaintext", lastModified := 0 }

/-! # Theorems -/

/-! ## Claim C7 — content filter eligibility -/

/-- Claim C7, counterexample: the empty content has no null byte, a
non-printable fraction of zero and length within the ceiling, yet the
filter classifies it ineligible (the source skips falsy content before
any other check). -/
theorem emptyContent_filter_counterexample :
    ([] : List Nat).contains 0 = false ∧
    10 * (([] : List Nat).filter isNonPrintable).length ≤ ([] : List Nat).length ∧
    ([] : List Nat).length ≤ 100000 ∧
    isEligible [] = false := by
  refine ⟨rfl, ?_, ?_, rfl⟩ <;> simp

/-- Claim C7 as amended: every nonempty content without a null byte,
with at most ten percent non-printable characters and length at most
100000, is eligible for embedding. -/
theorem isEligible_of_nonempty_clean (content : List Nat)
    (hne : content ≠ [])
    (h0 : content.contains 0 = false)
    (hnp : 10 * (content.filter isNonPrintable).length ≤ content.length)
    (hlen : content.length ≤ 100000) :
    isEligible content = true := by
  have hbin : isBinaryContent content = false := by
    simp only [isBinaryContent, h0, Bool.false_or, decide_eq_false_iff_not, not_lt]
    omega
  simp [isEligible, hbin, hne, hlen, Nat.not_lt.mpr hlen]

/-- Witness for the amended claim C7 at the two-character content
"hi". -/
theorem isEligible_of_nonempty_clean_witness : isEligible [104, 105] = true :=
  isEligible_of_nonempty_clean [104, 105] (by simp) (by rfl) (by simp [isNonPrintable]) (by simp)

/-! ## Claim C8 — ref-deletion sentinel -/

/-- Claim C8: a push event whose after field is the all-zero commit
sentinel issues no repository file fetch, no embedding call and no
storage write, and leaves the stored state unchanged. -/
theorem pushEvent_zero_sentinel_noop (env : Env) (db : Db) (e : PushEvent)
    (h : e.after = zeroCommit) :
    countFetches (processPushEvent env db e) = 0 ∧
    countEmbedCalls (processPushEvent env db e) = 0 ∧
    countStorageWrites (processPushEvent env db e) = 0 ∧
    applyOps db (processPushEvent env db e) = db := by
  simp [processPushEvent, h, countFetches, countEmbedCalls, countStorageWrites, applyOps]

/-- Witness for claim C8 at a concrete sentinel-carrying push event. -/
theorem pushEvent_zero_sentinel_noop_witness :
    countFetches (processPushEvent envFix dbFix pushFixZero) = 0 ∧
    countEmbedCalls (processPushEvent envFix dbFix pushFixZero) = 0 ∧
    countStorageWrites (processPushEvent envFix dbFix pushFixZero) = 0 ∧
    applyOps dbFix (processPushEvent envFix dbFix pushFixZero) = dbFix :=
  pushEvent_zero_sentinel_noop envFix dbFix pushFixZero rfl

/-! ## Claim C10 — numeric project id from a repository path -/

/-- Claim C10: whenever the hex parse of the digest head succeeds (as it
does for every md5 hex digest), generateProjectIdFromPath yields a value
strictly below 2147483647, and the same path always yields the same
value. -/
theorem generateProjectIdFromPath_range (md5hex : String → String) (path : String)
    (h : parseIntHex ((md5hex path).data.take 8) ≠ none) :
    ∃ r, generateProjectIdFromPath md5hex path = some r ∧ r < 2147483647 ∧
      ∀ q, q = path → generateProjectIdFromPath md5hex q = some r := by
  unfold generateProjectIdFromPath
  cases hp : parseIntHex ((md5hex path).data.take 8) with
  | none => exact absurd hp h
  | some n =>
    refine ⟨n % 2147483647, rfl, Nat.mod_lt n (by omega), ?_⟩
    intro q hq
    subst hq
    simp [generateProjectIdFromPath, hp]

/-- Witness for claim C10 at the md5 digest of the empty string. -/
theorem generateProjectIdFromPath_range_witness :
    ∃ r, generateProjectIdFromPath (fun _ => "d41d8cd98f00b204e9800998ecf8427e") "" = some r ∧
      r < 2147483647 ∧
      ∀ q, q = "" →
        generateProjectIdFromPath (fun _ => "d41d8cd98f00b204e9800998ecf8427e") q = some r :=
  generateProjectIdFromPath_range (fun _ => "d41d8cd98f00b204e9800998ecf8427e") "" (by decide)

/-! ## Claim C3 — batch upsert atomicity -/

/-- The per-row loop of saveEmbeddings never touches the committed
state: all writes go to the pending transaction view. -/
theorem runUpserts_committed (fails : CodeEmbedding → Bool)
    (rows : List CodeEmbedding) (c : PgClient) :
    ((runUpserts fails rows c).1).committed = c.committed := by
  induction rows generalizing c with
  | nil => rfl
  | cons r rs ih =>
    unfold runUpserts
    by_cases h : fails r = true <;> simp [h, ih]

/-- If some row of the batch fails, the loop reports the error. -/
theorem runUpserts_reports_failure (fails : CodeEmbedding → Bool)
    (rows : List CodeEmbedding) (c : PgClient)
    (h : ∃ r ∈ rows, fails r = true) :
    (runUpserts fails rows c).2 = true := by
  induction rows generalizing c with
  | nil => simp at h
  | cons r rs ih =>
    by_cases hr : fails r = true
    · simp [runUpserts, hr]
    · obtain ⟨x, hx, hfx⟩ := h
      have hxs : x ∈ rs := by
        cases hx with
        | head => exact absurd hfx hr
        | tail _ hmem => exact hmem
      simp only [runUpserts, hr, if_neg, Bool.false_eq_true, not_false_eq_true, ite_false]
      exact ih _ ⟨x, hxs, hfx⟩

/-- Claim C3: when writing any row of a nonempty batch fails, the whole
transaction is rolled back — the committed state is unchanged, no
transaction is left open, and the error is reported to the caller. -/
theorem saveEmbeddings_rollback_on_failure (fails : CodeEmbedding → Bool)
    (rows : List CodeEmbedding) (c : PgClient)
    (h : ∃ r ∈ rows, fails r = true) :
    (saveEmbeddings fails rows c).2 = true ∧
    ((saveEmbeddings fails rows c).1).committed = c.committed ∧
    ((saveEmbeddings fails rows c).1).pending = none := by
  have hne : rows.isEmpty = false := by
    obtain ⟨r, hr, _⟩ := h
    cases rows with
    | nil => simp at hr
    | cons a l => rfl
  have h2 := runUpserts_reports_failure fails rows (txBegin c) h
  have h1 := runUpserts_committed fails rows (txBegin c)
  unfold saveEmbeddings
  rcases hru : runUpserts fails rows (txBegin c) with ⟨c2, b⟩
  rw [hru] at h1 h2
  simp only at h1 h2
  subst h2
  simp [hne, hru, txRollback, txBegin] at h1 ⊢
  exact h1

/-- Witness for claim C3: a two-row batch whose second row fails leaves
an initially empty committed state empty and reports the error. -/
theorem saveEmbeddings_rollback_on_failure_witness :
    (saveEmbeddings (fun r => r.commitId == "c2") [rowA, rowB] ⟨[], none⟩).2 = true ∧
    ((saveEmbeddings (fun r => r.commitId == "c2") [rowA, rowB] ⟨[], none⟩).1).committed = [] ∧
    ((saveEmbeddings (fun r => r.commitId == "c2") [rowA, rowB] ⟨[], none⟩).1).pending = none :=
  saveEmbeddings_rollback_on_failure (fun r => r.commitId == "c2") [rowA, rowB] ⟨[], none⟩
    ⟨rowB, by simp, by rfl⟩

/-! ## Claim C5 — idempotent overwrite keyed by (project, path) -/

/-- A row that does not share its key with A does not share its key with
any B of the same key as A. -/
theorem sameKey_of_sameKey_right {s A B : CodeEmbedding}
    (hA : sameKey s A = false) (hAB : sameKey A B = true) : sameKey s B = false := by
  simp only [sameKey, Bool.and_eq_true, beq_iff_eq] at hAB
  simp only [sameKey, Bool.and_eq_false_iff, beq_eq_false_iff_ne] at hA ⊢
  rcases hA with h | h
  · exact Or.inl (hAB.1 ▸ h)
  · exact Or.inr (hAB.2 ▸ h)

/-- An upsert whose key is absent appends the row. -/
theorem upsertRow_of_absent (r : CodeEmbedding) (t : List CodeEmbedding)
    (h : ∀ s ∈ t, sameKey s r = false) : upsertRow r t = t ++ [r] := by
  induction t with
  | nil => rfl
  | cons s t ih =>
    have hs : sameKey s r = false := h s (List.mem_cons_self s t)
    simp only [upsertRow, hs, Bool.false_eq_true, if_false, List.cons_append, List.cons.injEq,
      true_and]
    exact ih fun x hx => h x (List.mem_cons_of_mem s hx)

/-- An upsert that matches only the final row updates it in place. -/
theorem upsertRow_append_match (B A : CodeEmbedding) (t : List CodeEmbedding)
    (h : ∀ s ∈ t, sameKey s B = false) (hAB : sameKey A B = true) :
    upsertRow B (t ++ [A]) = t ++ [applyConflictUpdate A B] := by
  induction t with
  | nil => simp [upsertRow, hAB]
  | cons s t ih =>
    have hs : sameKey s B = false := h s (List.mem_cons_self s t)
    simp only [List.cons_append, upsertRow, hs, Bool.false_eq_true, if_false, List.cons.injEq,
      true_and]
    exact ih fun x hx => h x (List.mem_cons_of_mem s hx)

/-- Claim C5 as amended: writing A then B under one previously absent
key (p, f) stores exactly one row for that key; the row carries the
content, embedding, language, commit, branch and update timestamp of B,
while repository URL and creation timestamp keep the values stored by
the first write (the ON CONFLICT update clause does not touch them). -/
theorem saveEmbedding_twice_overwrite (t : List CodeEmbedding) (A B : CodeEmbedding)
    (habsent : ∀ s ∈ t, sameKey s A = false)
    (hkey : sameKey A B = true) :
    saveEmbedding B (saveEmbedding A t) =
      t ++ [{ projectId := B.projectId, repositoryUrl := A.repositoryUrl
              filePath := B.filePath, content := B.content, embedding := B.embedding
              language := B.language, commitId := B.commitId, branch := B.branch
              createdAt := A.createdAt, updatedAt := B.updatedAt }] ∧
    ((saveEmbedding B (saveEmbedding A t)).filter (fun s => sameKey s B)).length = 1 := by
  have hB : ∀ s ∈ t, sameKey s B = false :=
    fun s hs => sameKey_of_sameKey_right (habsent s hs) hkey
  have hkeys : A.projectId = B.projectId ∧ A.filePath = B.filePath := by
    simpa [sameKey, Bool.and_eq_true, beq_iff_eq] using hkey
  have hrow : applyConflictUpdate A B =
      { projectId := B.projectId, repositoryUrl := A.repositoryUrl
        filePath := B.filePath, content := B.content, embedding := B.embedding
        language := B.language, commitId := B.commitId, branch := B.branch
        createdAt := A.createdAt, updatedAt := B.updatedAt } := by
    simp [applyConflictUpdate, hkeys.1, hkeys.2]
  have hmain : saveEmbedding B (saveEmbedding A t) = t ++ [applyConflictUpdate A B] := by
    unfold saveEmbedding
    rw [upsertRow_of_absent A t habsent]
    exact upsertRow_append_match B A t hB hkey
  refine ⟨hmain.trans (by rw [hrow]), ?_⟩
  rw [hmain, List.filter_append]
  have hclear : t.filter (fun s => sameKey s B) = [] :=
    List.filter_eq_nil_iff.2 fun s hs => by simp [hB s hs]
  have hself : sameKey (applyConflictUpdate A B) B = true := by
    simp [applyConflictUpdate, sameKey, hkeys.1, hkeys.2]
  simp [hclear, hself]

/-- Witness for the amended claim C5 at the concrete pair rowA, rowB on
the empty table. -/
theorem saveEmbedding_twice_overwrite_witness :
    saveEmbedding rowB (saveEmbedding rowA []) =
      [] ++ [{ projectId := rowB.projectId, repositoryUrl := rowA.repositoryUrl
               filePath := rowB.filePath, content := rowB.content, embedding := rowB.embedding
               language := rowB.language, commitId := rowB.commitId, branch := rowB.branch
               createdAt := rowA.createdAt, updatedAt := rowB.updatedAt }] ∧
    ((saveEmbedding rowB (saveEmbedding rowA [])).filter (fun s => sameKey s rowB)).length = 1 :=
  saveEmbedding_twice_overwrite [] rowA rowB (by simp) (by rfl)

/-- Claim C5, counterexample: after writing rowA then rowB under the
same key, exactly one row is stored, but reading it back does not yield
rowB — the stored repository URL is still that of rowA. -/
theorem saveEmbedding_roundtrip_counterexample :
    (saveEmbedding rowB (saveEmbedding rowA [])).length = 1 ∧
    saveEmbedding rowB (saveEmbedding rowA []) ≠ [rowB] ∧
    (saveEmbedding rowB (saveEmbedding rowA [])).map (fun r => r.repositoryUrl) =
      [rowA.repositoryUrl] ∧
    rowA.repositoryUrl ≠ rowB.repositoryUrl := by
  refine ⟨rfl, by decide, rfl, by decide⟩

/-! ## Claim C9 — search endpoint response contract -/

/-- Claim C9: for a non-empty query, zero retrieved results answer 404
with an empty list, at least one result answers 200 with the projected
rows, and the projection of a row does not depend on its embedding
vector (the vector is omitted from the response). -/
theorem searchCode_response
    (isVector : Bool)
    (vr : List CodeEmbedding → Nat → List Int → Nat → List CodeEmbedding)
    (vra : List CodeEmbedding → List Int → Nat → List CodeEmbedding)
    (embedQuery : String → List Int) (table : List CodeEmbedding)
    (query : String) (pid : Option Nat) (limit : Nat)
    (hq : query.isEmpty = false) :
    (retrieveSimilar isVector vr vra table (embedQuery query) pid limit = [] →
      (searchCode isVector vr vra embedQuery table query pid limit).status = 404 ∧
      (searchCode isVector vr vra embedQuery table query pid limit).results = []) ∧
    (retrieveSimilar isVector vr vra table (embedQuery query) pid limit ≠ [] →
      (searchCode isVector vr vra embedQuery table query pid limit).status = 200 ∧
      (searchCode isVector vr vra embedQuery table query pid limit).results =
        (retrieveSimilar isVector vr vra table (embedQuery query) pid limit).map
          toSearchResultItem) ∧
    (∀ (r : CodeEmbedding) (e : List Int),
      toSearchResultItem { r with embedding := e } = toSearchResultItem r) := by
  refine ⟨?_, ?_, fun r e => rfl⟩
  · intro hres
    simp [searchCode, hq, hres]
  · intro hres
    simp [searchCode, hq, hres]

/-- Witness for claim C9: a search for "hello" over an empty store with
no project scope and limit 5 answers 404 with an empty result list. -/
theorem searchCode_response_witness :
    (retrieveSimilar false (fun _ _ _ _ => []) (fun _ _ _ => []) [] ((fun _ => [0]) "hello")
        none 5 = [] →
      (searchCode false (fun _ _ _ _ => []) (fun _ _ _ => []) (fun _ => [0]) [] "hello"
          none 5).status = 404 ∧
      (searchCode false (fun _ _ _ _ => []) (fun _ _ _ => []) (fun _ => [0]) [] "hello"
          none 5).results = []) ∧
    (retrieveSimilar false (fun _ _ _ _ => []) (fun _ _ _ => []) [] ((fun _ => [0]) "hello")
        none 5 ≠ [] →
      (searchCode false (fun _ _ _ _ => []) (fun _ _ _ => []) (fun _ => [0]) [] "hello"
          none 5).status = 200 ∧
      (searchCode false (fun _ _ _ _ => []) (fun _ _ _ => []) (fun _ => [0]) [] "hello"
          none 5).results =
        (retrieveSimilar false (fun _ _ _ _ => []) (fun _ _ _ => []) [] ((fun _ => [0]) "hello")
            none 5).map toSearchResultItem) ∧
    (∀ (r : CodeEmbedding) (e : List Int),
      toSearchResultItem { r with embedding := e } = toSearchResultItem r) :=
  searchCode_response false (fun _ _ _ _ => []) (fun _ _ _ => []) (fun _ => [0]) [] "hello"
    none 5 (by rfl)

/-! ## Claim C1 — commit idempotency gate -/

/-- Claim C1 as amended: for push events the idempotency gate holds —
when the recorded lastProcessedCommit of the project equals the incoming
commit, the run is a complete no-op (no repository file fetch, no
embedding call, no storage write, stored state unchanged).  The
merge-request handler performs no such check (see the counterexample). -/
theorem pushEvent_already_processed_skips (env : Env) (db : Db) (e : PushEvent)
    (m : ProjectMetadata)
    (hm : getProjectMetadata db.projects e.projectId = some m)
    (hc : m.lastProcessedCommit = e.after) :
    countFetches (processPushEvent env db e) = 0 ∧
    countEmbedCalls (processPushEvent env db e) = 0 ∧
    countStorageWrites (processPushEvent env db e) = 0 ∧
    applyOps db (processPushEvent env db e) = db := by
  by_cases hz : e.after = zeroCommit
  · simp [processPushEvent, hz, countFetches, countEmbedCalls, countStorageWrites, applyOps]
  · simp [processPushEvent, resolveMetadata, hm, hz, hc, countFetches, countEmbedCalls,
      countStorageWrites, applyOps]

/-- Witness for the amended claim C1: re-delivering commit c1 to a
store that already records c1 leaves everything untouched. -/
theorem pushEvent_already_processed_skips_witness :
    countFetches (processPushEvent envFix dbFix pushFixOld) = 0 ∧
    countEmbedCalls (processPushEvent envFix dbFix pushFixOld) = 0 ∧
    countStorageWrites (processPushEvent envFix dbFix pushFixOld) = 0 ∧
    applyOps dbFix (processPushEvent envFix dbFix pushFixOld) = dbFix :=
  pushEvent_already_processed_skips envFix dbFix pushFixOld metaFix rfl rfl

/-- Claim C1, counterexample: a merge-request update event whose last
commit equals the recorded lastProcessedCommit is processed anyway — the
run performs a repository file fetch, an embedding call and three
storage writes, so the claimed no-op fails for merge-request events. -/
theorem mrEvent_already_processed_counterexample :
    getProjectMetadata dbFix.projects mrFix.projectId = some metaFix ∧
    metaFix.lastProcessedCommit = mrFix.lastCommitId ∧
    countFetches (processMergeRequestEvent envFix dbFix mrFix) = 1 ∧
    countEmbedCalls (processMergeRequestEvent envFix dbFix mrFix) = 1 ∧
    countStorageWrites (processMergeRequestEvent envFix dbFix mrFix) = 3 := by
  exact ⟨rfl, rfl, rfl, rfl, rfl⟩

/-! ## Claim C4 — degraded similarity search -/

/-- Recency ordering is transitive. -/
theorem updatedAtDesc_trans (a b c : CodeEmbedding)
    (h1 : updatedAtDesc a b) (h2 : updatedAtDesc b c) : updatedAtDesc a c = true := by
  simp [updatedAtDesc] at h1 h2 ⊢
  omega

/-- Recency ordering is total. -/
theorem updatedAtDesc_total (a b : CodeEmbedding) :
    (updatedAtDesc a b || updatedAtDesc b a) = true := by
  simp [updatedAtDesc]
  omega

/-- The recency query over any row list: the result is sorted by update
time descending, has min limit scope-size members drawn from the scope,
and dominates everything it leaves out. -/
theorem recencyTake_spec (l : List CodeEmbedding) (limit : Nat) :
    List.Pairwise (fun a b => b.updatedAt ≤ a.updatedAt)
      ((l.mergeSort updatedAtDesc).take limit) ∧
    ((l.mergeSort updatedAtDesc).take limit).length = min limit l.length ∧
    (∀ r ∈ (l.mergeSort updatedAtDesc).take limit, r ∈ l) ∧
    ∃ dropped,
      ((l.mergeSort updatedAtDesc).take limit ++ dropped).Perm l ∧
      ∀ a ∈ (l.mergeSort updatedAtDesc).take limit, ∀ b ∈ dropped,
        b.updatedAt ≤ a.updatedAt := by
  have hsorted : (l.mergeSort updatedAtDesc).Pairwise (fun a b => updatedAtDesc a b = true) :=
    List.sorted_mergeSort (fun a b c => updatedAtDesc_trans a b c) updatedAtDesc_total l
  have hsorted2 : (l.mergeSort updatedAtDesc).Pairwise (fun a b => b.updatedAt ≤ a.updatedAt) :=
    hsorted.imp (fun h => by simpa [updatedAtDesc] using h)
  refine ⟨List.Pairwise.sublist (List.take_sublist limit _) hsorted2, ?_, ?_, ?_⟩
  · simp
  · intro r hr
    exact List.mem_mergeSort.1 (List.mem_of_mem_take hr)
  · refine ⟨(l.mergeSort updatedAtDesc).drop limit, ?_, ?_⟩
    · rw [List.take_append_drop]
      exact List.mergeSort_perm l _
    · have hsp : ((l.mergeSort updatedAtDesc).take limit ++
          (l.mergeSort updatedAtDesc).drop limit).Pairwise
            (fun a b => b.updatedAt ≤ a.updatedAt) := by
        rw [List.take_append_drop]
        exact hsorted2
      have h3 := List.pairwise_append.1 hsp
      exact fun a ha b hb => h3.2.2 a ha b hb

/-- Claim C4: with native vector support absent, the project-scoped and
the global search both return the most recently updated limit rows of
their scope, ordered by update time descending, and the result does not
depend on the query embedding (no similarity metric is involved). -/
theorem searchSimilarCode_degraded
    (vr vr2 : List CodeEmbedding → Nat → List Int → Nat → List CodeEmbedding)
    (vra vra2 : List CodeEmbedding → List Int → Nat → List CodeEmbedding)
    (table : List CodeEmbedding) (pid : Nat) (e1 e2 : List Int) (limit : Nat) :
    (List.Pairwise (fun a b => b.updatedAt ≤ a.updatedAt)
        (searchSimilarCode false vr table pid e1 limit) ∧
      (searchSimilarCode false vr table pid e1 limit).length =
        min limit (table.filter (fun r => r.projectId == pid)).length ∧
      (∀ r ∈ searchSimilarCode false vr table pid e1 limit,
        r ∈ table ∧ r.projectId = pid) ∧
      (∃ dropped,
        (searchSimilarCode false vr table pid e1 limit ++ dropped).Perm
          (table.filter (fun r => r.projectId == pid)) ∧
        ∀ a ∈ searchSimilarCode false vr table pid e1 limit, ∀ b ∈ dropped,
          b.updatedAt ≤ a.updatedAt) ∧
      searchSimilarCode false vr2 table pid e2 limit =
        searchSimilarCode false vr table pid e1 limit) ∧
    (List.Pairwise (fun a b => b.updatedAt ≤ a.updatedAt)
        (searchSimilarCodeAcrossProjects false vra table e1 limit) ∧
      (searchSimilarCodeAcrossProjects false vra table e1 limit).length =
        min limit table.length ∧
      (∀ r ∈ searchSimilarCodeAcrossProjects false vra table e1 limit, r ∈ table) ∧
      (∃ dropped,
        (searchSimilarCodeAcrossProjects false vra table e1 limit ++ dropped).Perm table ∧
        ∀ a ∈ searchSimilarCodeAcrossProjects false vra table e1 limit, ∀ b ∈ dropped,
          b.updatedAt ≤ a.updatedAt) ∧
      searchSimilarCodeAcrossProjects false vra2 table e2 limit =
        searchSimilarCodeAcrossProjects false vra table e1 limit) := by
  have hs := recencyTake_spec (table.filter (fun r => r.projectId == pid)) limit
  have ha := recencyTake_spec table limit
  simp only [searchSimilarCode, searchSimilarCodeAcrossProjects, Bool.false_eq_true, if_false]
  refine ⟨⟨hs.1, ?_, ?_, hs.2.2.2, by trivial⟩, ⟨ha.1, ha.2.1, ha.2.2.1, ha.2.2.2, by trivial⟩⟩
  · rw [hs.2.1]
  · intro r hr
    have hmem := hs.2.2.1 r hr
    have := List.mem_filter.1 hmem
    exact ⟨this.1, by simpa using this.2⟩

/-! ## Claim C2 — write ordering and crash safety of a run -/

/-- The embedding generator issues only embedding-model calls. -/
theorem generateEmbeddings_ops_embedCall (env : Env) (files : List CodeFile) (pid : Nat)
    (cid br : String) :
    ∀ op ∈ (generateEmbeddings env files pid cid br).1, ∃ t, op = Op.embedCall t := by
  induction files with
  | nil =>
    intro op hop
    simp [generateEmbeddings] at hop
  | cons f rest ih =>
    intro op hop
    cases he : isEligible f.content with
    | true =>
      simp only [generateEmbeddings, he, if_true, List.mem_cons] at hop
      cases hop with
      | inl h => exact ⟨f.content, h⟩
      | inr h => exact ih op h
    | false =>
      simp only [generateEmbeddings, he, Bool.false_eq_true, if_false] at hop
      exact ih op hop

/-- Applying operations distributes over concatenation of traces. -/
theorem applyOps_append (db : Db) (l1 l2 : List Op) :
    applyOps db (l1 ++ l2) = applyOps (applyOps db l1) l2 := by
  induction l1 generalizing db with
  | nil => rfl
  | cons op rest ih => simp [applyOps, ih]

/-- A trace without metadata writes leaves the projects relation
unchanged. -/
theorem applyOps_projects_stable (db : Db) (ops : List Op) :
    (∀ m, Op.writeMetadata m ∉ ops) → (applyOps db ops).projects = db.projects := by
  induction ops generalizing db with
  | nil => intro _; rfl
  | cons op rest ih =>
    intro h
    have hrest : ∀ m, Op.writeMetadata m ∉ rest :=
      fun m hm => h m (List.mem_cons_of_mem _ hm)
    have hop : (applyOp db op).projects = db.projects := by
      cases op with
      | writeMetadata m => exact absurd (List.mem_cons_self _ _) (h m)
      | getProject p => rfl
      | fetchFiles p r => rfl
      | embedCall t => rfl
      | writeEmbeddings rows => rfl
      | writeBatch b => rfl
    calc (applyOps db (op :: rest)).projects
        = (applyOps (applyOp db op) rest).projects := rfl
      _ = (applyOp db op).projects := ih _ hrest
      _ = db.projects := hop

/-- The projects upsert makes its row retrievable. -/
theorem getProjectMetadata_upsertMetaRow (m : ProjectMetadata) (ps : List ProjectMetadata) :
    getProjectMetadata (upsertMetaRow m ps) m.projectId = some m := by
  induction ps with
  | nil => simp [upsertMetaRow, getProjectMetadata, List.find?]
  | cons s t ih =>
    cases hs : s.projectId == m.projectId with
    | true => simp [upsertMetaRow, hs, getProjectMetadata, List.find?]
    | false =>
      simp only [upsertMetaRow, hs, Bool.false_eq_true, if_false]
      simpa [getProjectMetadata, List.find?, hs] using ih

/-- The metadata resolved by the dispatcher is for the requested
project. -/
theorem resolveMetadata_projectId (env : Env) (db : Db) (pid : Nat) :
    ((resolveMetadata env db pid).2).projectId = pid := by
  unfold resolveMetadata
  cases hm : getProjectMetadata db.projects pid with
  | none => rfl
  | some m =>
    have hm2 : db.projects.find? (fun x => x.projectId == pid) = some m := hm
    have hp := List.find?_some hm2
    simpa [beq_iff_eq] using hp

/-- Metadata resolution issues at most a provider project lookup. -/
theorem resolveMetadata_ops (env : Env) (db : Db) (pid : Nat) :
    (resolveMetadata env db pid).1 = [] ∨
    (resolveMetadata env db pid).1 = [Op.getProject pid] := by
  unfold resolveMetadata
  cases getProjectMetadata db.projects pid with
  | none => exact Or.inr rfl
  | some m => exact Or.inl rfl

/-- Shape of a processFiles run that found files: fetch, embedding
calls, then the three writes in order. -/
theorem processFiles_eq (env : Env) (preOps : List Op) (meta : ProjectMetadata)
    (pid : Nat) (cid ref br url : String)
    (hf : (env.getAllFiles pid ref).isEmpty = false) :
    processFiles env preOps meta pid cid ref br url =
      preOps ++ [Op.fetchFiles pid ref] ++
        (generateEmbeddings env (env.getAllFiles pid ref) pid cid br).1 ++
        [Op.writeEmbeddings
            ((generateEmbeddings env (env.getAllFiles pid ref) pid cid br).2.map
              (fun r => { r with repositoryUrl := url })),
          Op.writeBatch
            { projectId := pid, commitId := cid, branch := br
              files := env.getAllFiles pid ref
              embeddings := (generateEmbeddings env (env.getAllFiles pid ref) pid cid br).2.map
                (fun r => { r with repositoryUrl := url })
              createdAt := env.now },
          Op.writeMetadata
            { meta with lastProcessedCommit := cid, lastProcessedAt := env.now }] := by
  simp [processFiles, hf, List.append_assoc]

/-- A push event that passes the sentinel check and the idempotency gate
runs processFiles on the incoming commit. -/
theorem processPushEvent_eq (env : Env) (db : Db) (e : PushEvent)
    (hz : e.after ≠ zeroCommit)
    (hc : ((resolveMetadata env db e.projectId).2).lastProcessedCommit ≠ e.after) :
    processPushEvent env db e =
      processFiles env (resolveMetadata env db e.projectId).1
        (resolveMetadata env db e.projectId).2 e.projectId e.after e.after
        (stripRefsHeads e.ref) e.projectWebUrl := by
  simp [processPushEvent, hz, hc]

/-- Claim C2: a successful push-processing run performs its storage
writes in the order embeddings upsert, batch append, metadata update;
the metadata written records the incoming commit for the project of the
event; interrupting the run at any proper point (any strict decomposition
of the trace) leaves the projects relation — hence the recorded
lastProcessedCommit — unchanged; and the completed run makes the new
metadata retrievable. -/
theorem pushEvent_write_order (env : Env) (db : Db) (e : PushEvent)
    (hz : e.after ≠ zeroCommit)
    (hc : ((resolveMetadata env db e.projectId).2).lastProcessedCommit ≠ e.after)
    (hf : env.getAllFiles e.projectId e.after ≠ []) :
    ∃ rows batch meta2,
      writeOps (processPushEvent env db e) =
        [Op.writeEmbeddings rows, Op.writeBatch batch, Op.writeMetadata meta2] ∧
      meta2.lastProcessedCommit = e.after ∧
      meta2.projectId = e.projectId ∧
      (∀ p q, processPushEvent env db e = p ++ q → q ≠ [] →
        (applyOps db p).projects = db.projects) ∧
      getProjectMetadata (applyOps db (processPushEvent env db e)).projects e.projectId =
        some meta2 := by
  have hfe : (env.getAllFiles e.projectId e.after).isEmpty = false :=
    List.isEmpty_eq_false.2 hf
  have hgen := generateEmbeddings_ops_embedCall env (env.getAllFiles e.projectId e.after)
    e.projectId e.after (stripRefsHeads e.ref)
  have hrmops := resolveMetadata_ops env db e.projectId
  have hrmpid := resolveMetadata_projectId env db e.projectId
  have htrace0 := (processPushEvent_eq env db e hz hc).trans
    (processFiles_eq env (resolveMetadata env db e.projectId).1
      (resolveMetadata env db e.projectId).2 e.projectId e.after e.after
      (stripRefsHeads e.ref) e.projectWebUrl hfe)
  have htrace : processPushEvent env db e =
      ((resolveMetadata env db e.projectId).1 ++ [Op.fetchFiles e.projectId e.after] ++
        (generateEmbeddings env (env.getAllFiles e.projectId e.after)
          e.projectId e.after (stripRefsHeads e.ref)).1 ++
        [Op.writeEmbeddings
            ((generateEmbeddings env (env.getAllFiles e.projectId e.after)
              e.projectId e.after (stripRefsHeads e.ref)).2.map
              (fun r => { r with repositoryUrl := e.projectWebUrl })),
          Op.writeBatch
            { projectId := e.projectId, commitId := e.after
              branch := stripRefsHeads e.ref
              files := env.getAllFiles e.projectId e.after
              embeddings := (generateEmbeddings env (env.getAllFiles e.projectId e.after)
                e.projectId e.after (stripRefsHeads e.ref)).2.map
                (fun r => { r with repositoryUrl := e.projectWebUrl })
              createdAt := env.now }]) ++
      [Op.writeMetadata
        { (resolveMetadata env db e.projectId).2 with
          lastProcessedCommit := e.after, lastProcessedAt := env.now }] := by
    rw [htrace0]
    simp [List.append_assoc]
  have hfrontNoMeta : ∀ m, Op.writeMetadata m ∉
      ((resolveMetadata env db e.projectId).1 ++ [Op.fetchFiles e.projectId e.after] ++
        (generateEmbeddings env (env.getAllFiles e.projectId e.after)
          e.projectId e.after (stripRefsHeads e.ref)).1 ++
        [Op.writeEmbeddings
            ((generateEmbeddings env (env.getAllFiles e.projectId e.after)
              e.projectId e.after (stripRefsHeads e.ref)).2.map
              (fun r => { r with repositoryUrl := e.projectWebUrl })),
          Op.writeBatch
            { projectId := e.projectId, commitId := e.after
              branch := stripRefsHeads e.ref
              files := env.getAllFiles e.projectId e.after
              embeddings := (generateEmbeddings env (env.getAllFiles e.projectId e.after)
                e.projectId e.after (stripRefsHeads e.ref)).2.map
                (fun r => { r with repositoryUrl := e.projectWebUrl })
              createdAt := env.now }]) := by
    intro m hm
    simp only [List.append_assoc, List.mem_append, List.mem_cons, List.not_mem_nil,
      or_false] at hm
    rcases hm with h | h | h | h | h
    · rcases hrmops with ho | ho <;> rw [ho] at h <;> simp at h
    · exact Op.noConfusion h
    · obtain ⟨t, ht⟩ := hgen _ h
      exact Op.noConfusion ht
    · exact Op.noConfusion h
    · exact Op.noConfusion h
  refine ⟨(generateEmbeddings env (env.getAllFiles e.projectId e.after)
      e.projectId e.after (stripRefsHeads e.ref)).2.map
      (fun r => { r with repositoryUrl := e.projectWebUrl }),
    { projectId := e.projectId, commitId := e.after, branch := stripRefsHeads e.ref
      files := env.getAllFiles e.projectId e.after
      embeddings := (generateEmbeddings env (env.getAllFiles e.projectId e.after)
        e.projectId e.after (stripRefsHeads e.ref)).2.map
        (fun r => { r with repositoryUrl := e.projectWebUrl })
      createdAt := env.now },
    { (resolveMetadata env db e.projectId).2 with
      lastProcessedCommit := e.after, lastProcessedAt := env.now }, ?_, rfl, hrmpid, ?_, ?_⟩
  · rw [htrace, writeOps, List.filter_append]
    have hfrontWrites :
        (((resolveMetadata env db e.projectId).1 ++ [Op.fetchFiles e.projectId e.after] ++
          (generateEmbeddings env (env.getAllFiles e.projectId e.after)
            e.projectId e.after (stripRefsHeads e.ref)).1 ++
          [Op.writeEmbeddings
              ((generateEmbeddings env (env.getAllFiles e.projectId e.after)
                e.projectId e.after (stripRefsHeads e.ref)).2.map
                (fun r => { r with repositoryUrl := e.projectWebUrl })),
            Op.writeBatch
              { projectId := e.projectId, commitId := e.after
                branch := stripRefsHeads e.ref
                files := env.getAllFiles e.projectId e.after
                embeddings := (generateEmbeddings env (env.getAllFiles e.projectId e.after)
                  e.projectId e.after (stripRefsHeads e.ref)).2.map
                  (fun r => { r with repositoryUrl := e.projectWebUrl })
                createdAt := env.now }]).filter isWriteOp) =
        [Op.writeEmbeddings
            ((generateEmbeddings env (env.getAllFiles e.projectId e.after)
              e.projectId e.after (stripRefsHeads e.ref)).2.map
              (fun r => { r with repositoryUrl := e.projectWebUrl })),
          Op.writeBatch
            { projectId := e.projectId, commitId := e.after
              branch := stripRefsHeads e.ref
              files := env.getAllFiles e.projectId e.after
              embeddings := (generateEmbeddings env (env.getAllFiles e.projectId e.after)
                e.projectId e.after (stripRefsHeads e.ref)).2.map
                (fun r => { r with repositoryUrl := e.projectWebUrl })
              createdAt := env.now }] := by
      simp only [List.filter_append]
      have h1 : (resolveMetadata env db e.projectId).1.filter isWriteOp = [] := by
        rcases hrmops with ho | ho <;> rw [ho] <;> simp [isWriteOp]
      have h2 : (generateEmbeddings env (env.getAllFiles e.projectId e.after)
          e.projectId e.after (stripRefsHeads e.ref)).1.filter isWriteOp = [] := by
        refine List.filter_eq_nil_iff.2 fun op hop => ?_
        obtain ⟨t, ht⟩ := hgen op hop
        simp [ht, isWriteOp]
      simp [h1, h2, isWriteOp]
    rw [hfrontWrites]
    simp [isWriteOp]
  · intro p q hpq hq
    have hfq := hpq.symm.trans htrace
    have hple : p.length ≤
        (((resolveMetadata env db e.projectId).1 ++ [Op.fetchFiles e.projectId e.after] ++
          (generateEmbeddings env (env.getAllFiles e.projectId e.after)
            e.projectId e.after (stripRefsHeads e.ref)).1 ++
          [Op.writeEmbeddings
              ((generateEmbeddings env (env.getAllFiles e.projectId e.after)
                e.projectId e.after (stripRefsHeads e.ref)).2.map
                (fun r => { r with repositoryUrl := e.projectWebUrl })),
            Op.writeBatch
              { projectId := e.projectId, commitId := e.after
                branch := stripRefsHeads e.ref
                files := env.getAllFiles e.projectId e.after
                embeddings := (generateEmbeddings env (env.getAllFiles e.projectId e.after)
                  e.projectId e.after (stripRefsHeads e.ref)).2.map
                  (fun r => { r with repositoryUrl := e.projectWebUrl })
                createdAt := env.now }]).length) := by
      have hlen := congrArg List.length hfq
      simp only [List.length_append, List.length_cons, List.length_nil] at hlen
      have hqpos : 0 < q.length := List.length_pos.2 hq
      simp only [List.length_append, List.length_cons, List.length_nil]
      omega
    have hp2 : p = List.take p.length
        ((resolveMetadata env db e.projectId).1 ++ [Op.fetchFiles e.projectId e.after] ++
          (generateEmbeddings env (env.getAllFiles e.projectId e.after)
            e.projectId e.after (stripRefsHeads e.ref)).1 ++
          [Op.writeEmbeddings
              ((generateEmbeddings env (env.getAllFiles e.projectId e.after)
                e.projectId e.after (stripRefsHeads e.ref)).2.map
                (fun r => { r with repositoryUrl := e.projectWebUrl })),
            Op.writeBatch
              { projectId := e.projectId, commitId := e.after
                branch := stripRefsHeads e.ref
                files := env.getAllFiles e.projectId e.after
                embeddings := (generateEmbeddings env (env.getAllFiles e.projectId e.after)
                  e.projectId e.after (stripRefsHeads e.ref)).2.map
                  (fun r => { r with repositoryUrl := e.projectWebUrl })
                createdAt := env.now }]) := by
      have hp1 : List.take p.length (p ++ q) = p := List.take_left p q
      rw [hfq] at hp1
      rw [← hp1, List.take_append_eq_append_take, Nat.sub_eq_zero_of_le hple]
      simp
    have hpNoMeta : ∀ m, Op.writeMetadata m ∉ p := by
      intro m hm
      rw [hp2] at hm
      exact hfrontNoMeta m (List.mem_of_mem_take hm)
    exact applyOps_projects_stable db p hpNoMeta
  · rw [htrace, applyOps_append]
    have hstable := applyOps_projects_stable db _ hfrontNoMeta
    simp only [applyOps, applyOp]
    rw [hstable]
    have hres := getProjectMetadata_upsertMetaRow
      { (resolveMetadata env db e.projectId).2 with
        lastProcessedCommit := e.after, lastProcessedAt := env.now } db.projects
    rw [show ({ (resolveMetadata env db e.projectId).2 with
        lastProcessedCommit := e.after, lastProcessedAt := env.now } :
        ProjectMetadata).projectId = e.projectId from hrmpid] at hres
    exact hres

/-- Witness for claim C2: a fresh commit c2 for a project whose recorded
commit is c1, with one fetched file, performs the three writes in order
and ends with the metadata retrievable. -/
theorem pushEvent_write_order_witness :
    ∃ rows batch meta2,
      writeOps (processPushEvent envFix dbFix pushFixNew) =
        [Op.writeEmbeddings rows, Op.writeBatch batch, Op.writeMetadata meta2] ∧
      meta2.lastProcessedCommit = pushFixNew.after ∧
      meta2.projectId = pushFixNew.projectId ∧
      (∀ p q, processPushEvent envFix dbFix pushFixNew = p ++ q → q ≠ [] →
        (applyOps dbFix p).projects = dbFix.projects) ∧
      getProjectMetadata
          (applyOps dbFix (processPushEvent envFix dbFix pushFixNew)).projects
          pushFixNew.projectId =
        some meta2 :=
  pushEvent_write_order envFix dbFix pushFixNew (by decide) (by decide) (by decide)

/-! ## Claim C6 — chunking of a 20000-character file -/

/-- splitNl never returns the empty list. -/
theorem splitNl_ne_nil (c : List Nat) : splitNl c ≠ [] := by
  cases c with
  | nil => simp [splitNl]
  | cons x rest =>
    by_cases hx : x = 10
    · simp [splitNl, hx]
    · cases hsp : splitNl rest with
      | nil => simp [splitNl, hx, hsp]
      | cons l ls => simp [splitNl, hx, hsp]

/-- splitNl of a newline-free list is that single line. -/
theorem splitNl_no_newline (l : List Nat) (h : 10 ∉ l) : splitNl l = [l] := by
  induction l with
  | nil => rfl
  | cons c rest ih =>
    have hc : c ≠ 10 := fun hc => h (hc ▸ List.mem_cons_self c rest)
    have hrest : 10 ∉ rest := fun hm => h (List.mem_cons_of_mem c hm)
    simp [splitNl, hc, ih hrest]

/-- splitNl after a newline-free line and an explicit newline. -/
theorem splitNl_append_newline (l rest : List Nat) (h : 10 ∉ l) :
    splitNl (l ++ 10 :: rest) = l :: splitNl rest := by
  induction l with
  | nil => simp [splitNl]
  | cons c t ih =>
    have hc : c ≠ 10 := fun hc => h (hc ▸ List.mem_cons_self c t)
    have ht : 10 ∉ t := fun hm => h (List.mem_cons_of_mem c hm)
    rw [List.cons_append]
    simp only [splitNl, hc, if_neg, ite_false, ih ht]

/-- Reattaching the newline to every split line restores the content
followed by one final newline. -/
theorem splitNl_flatten (c : List Nat) :
    ((splitNl c).map (fun l => l ++ [10])).flatten = c ++ [10] := by
  induction c with
  | nil => rfl
  | cons x rest ih =>
    by_cases hx : x = 10
    · subst hx
      simp [splitNl, ih]
    · cases hsp : splitNl rest with
      | nil => exact absurd hsp (splitNl_ne_nil rest)
      | cons l ls =>
        rw [hsp] at ih
        simp only [splitNl, hx, ite_false, hsp, List.map_cons, List.flatten_cons] at ih ⊢
        simp only [List.cons_append]
        exact congrArg (x :: ·) ih

/-- The contents of the chunks flatten to the pending chunk followed by
the remaining lines, each with its newline reattached. -/
theorem chunkLines_flatten (file : CodeFile) (M : Nat) (lines : List (List Nat))
    (acc : List Nat) (idx : Nat) :
    ((chunkLines file M lines acc idx).map (fun f => f.content)).flatten =
      acc ++ (lines.map (fun l => l ++ [10])).flatten := by
  induction lines generalizing acc idx with
  | nil =>
    by_cases ha : acc.isEmpty
    · simp [chunkLines, ha, List.isEmpty_iff.1 ha]
    · simp [chunkLines, ha]
  | cons line rest ih =>
    by_cases hb : M < acc.length + line.length + 1
    · simp [chunkLines, hb, ih, List.append_assoc]
    · simp [chunkLines, hb, ih, List.append_assoc]

/-- Every chunk respects the size bound when every line (with its
newline) fits and the pending chunk does. -/
theorem chunkLines_content_le (file : CodeFile) (M : Nat) (lines : List (List Nat))
    (acc : List Nat) (idx : Nat)
    (hacc : acc.length ≤ M) (hl : ∀ l ∈ lines, l.length + 1 ≤ M) :
    ∀ f ∈ chunkLines file M lines acc idx, f.content.length ≤ M := by
  induction lines generalizing acc idx with
  | nil =>
    intro f hf
    by_cases ha : acc.isEmpty
    · simp [chunkLines, ha] at hf
    · simp only [chunkLines, ha, Bool.false_eq_true, if_false, List.mem_singleton] at hf
      rw [hf]
      exact hacc
  | cons line rest ih =>
    intro f hf
    have hline := hl line (List.mem_cons_self line rest)
    have hrest : ∀ l ∈ rest, l.length + 1 ≤ M :=
      fun l hm => hl l (List.mem_cons_of_mem line hm)
    by_cases hb : M < acc.length + line.length + 1
    · simp only [chunkLines, hb, if_pos, ite_true, List.mem_cons] at hf
      cases hf with
      | inl h =>
        rw [h]
        exact hacc
      | inr h =>
        refine ih (line ++ [10]) (idx + 1) ?_ hrest f h
        simpa using hline
    · simp only [chunkLines, hb, ite_false] at hf
      refine ih (acc ++ line ++ [10]) idx ?_ hrest f hf
      simp only [List.length_append, List.length_cons, List.length_nil]
      omega

/-- The chunk loop returns at least one chunk once the pending chunk is
nonempty. -/
theorem chunkLines_ne_nil (file : CodeFile) (M : Nat) (lines : List (List Nat))
    (acc : List Nat) (idx : Nat) (ha : acc ≠ []) :
    chunkLines file M lines acc idx ≠ [] := by
  induction lines generalizing acc idx with
  | nil =>
    have : acc.isEmpty = false := by simpa using ha
    simp [chunkLines, this]
  | cons line rest ih =>
    by_cases hb : M < acc.length + line.length + 1
    · simp [chunkLines, hb]
    · simp only [chunkLines, hb, ite_false]
      exact ih (acc ++ line ++ [10]) idx (by simp)

/-- Every chunk but the last was emitted on overflow, so its content
exceeds the threshold minus the line bound. -/
theorem chunkLines_dropLast_ge (file : CodeFile) (M L : Nat) (lines : List (List Nat))
    (acc : List Nat) (idx : Nat)
    (hl : ∀ l ∈ lines, l.length ≤ L) :
    ∀ f ∈ (chunkLines file M lines acc idx).dropLast, M - L ≤ f.content.length := by
  induction lines generalizing acc idx with
  | nil =>
    intro f hf
    by_cases ha : acc.isEmpty
    · simp [chunkLines, ha] at hf
    · simp [chunkLines, ha] at hf
  | cons line rest ih =>
    intro f hf
    have hline := hl line (List.mem_cons_self line rest)
    have hrest : ∀ l ∈ rest, l.length ≤ L :=
      fun l hm => hl l (List.mem_cons_of_mem line hm)
    by_cases hb : M < acc.length + line.length + 1
    · rcases hrec : chunkLines file M rest (line ++ [10]) (idx + 1) with _ | ⟨r, rs⟩
      · exact absurd hrec (chunkLines_ne_nil file M rest (line ++ [10]) (idx + 1) (by simp))
      · simp only [chunkLines, hb, if_pos, ite_true, hrec, List.dropLast_cons₂,
          List.mem_cons] at hf
        cases hf with
        | inl h =>
          rw [h]
          simp only
          omega
        | inr h =>
          have := ih (line ++ [10]) (idx + 1) hrest
          rw [hrec] at this
          exact this f h
    · simp only [chunkLines, hb, ite_false] at hf
      exact ih (acc ++ line ++ [10]) idx hrest f hf

/-- The chunk paths are the original path suffixed with consecutive
chunk indices starting at `idx`. -/
theorem chunkLines_paths (file : CodeFile) (M : Nat) (lines : List (List Nat))
    (acc : List Nat) (idx : Nat) :
    (chunkLines file M lines acc idx).map (fun f => f.path) =
      (List.range' idx (chunkLines file M lines acc idx).length).map
        (fun j => file.path ++ "#chunk" ++ toString j) := by
  induction lines generalizing acc idx with
  | nil =>
    by_cases ha : acc.isEmpty
    · simp [chunkLines, ha]
    · simp [chunkLines, ha, List.range']
  | cons line rest ih =>
    by_cases hb : M < acc.length + line.length + 1
    · simp only [chunkLines, hb, if_pos, ite_true, List.map_cons, List.length_cons,
        List.range'_succ, ih (line ++ [10]) (idx + 1)]
    · simp only [chunkLines, hb, ite_false, ih (acc ++ line ++ [10]) idx]

/-- A list of naturals all bounded above sums to at most count times the
bound. -/
theorem list_sum_le (l : List Nat) (b : Nat) (h : ∀ x ∈ l, x ≤ b) :
    l.sum ≤ l.length * b := by
  induction l with
  | nil => simp
  | cons x t ih =>
    have hx := h x (List.mem_cons_self x t)
    have ht := ih fun y hy => h y (List.mem_cons_of_mem x hy)
    simp only [List.sum_cons, List.length_cons]
    calc x + t.sum ≤ b + t.length * b := Nat.add_le_add hx ht
      _ = (t.length + 1) * b := by ring

/-- A list of naturals all bounded below sums to at least count times
the bound. -/
theorem list_le_sum (l : List Nat) (b : Nat) (h : ∀ x ∈ l, b ≤ x) :
    l.length * b ≤ l.sum := by
  induction l with
  | nil => simp
  | cons x t ih =>
    have hx := h x (List.mem_cons_self x t)
    have ht := ih fun y hy => h y (List.mem_cons_of_mem x hy)
    simp only [List.sum_cons, List.length_cons]
    calc (t.length + 1) * b = b + t.length * b := by ring
      _ ≤ x + t.sum := Nat.add_le_add hx ht

/-- Dropping the final element of a list cannot increase the mapped
sum. -/
theorem sum_map_dropLast_le {α : Type} (cs : List α) (g : α → Nat) :
    (cs.dropLast.map g).sum ≤ (cs.map g).sum := by
  cases hcse : cs with
  | nil => simp
  | cons c0 rest =>
    have hnnil : (c0 :: rest) ≠ [] := by simp
    conv_rhs => rw [← List.dropLast_concat_getLast hnnil]
    rw [List.map_append, List.sum_append]
    simp

/-- Appending distinct suffixes to one stem yields distinct strings. -/
theorem string_append_ne (p : String) {a b : String} (hne : a ≠ b) : p ++ a ≠ p ++ b := by
  intro h
  apply hne
  have hd := congrArg String.data h
  simp only [String.data_append] at hd
  exact String.ext (List.append_cancel_left hd)

/-- Claim C6, counterexample: a 20000-character file consisting of one
single line is split into 2 chunks, not 3, and the second chunk holds
20001 characters, far above the 8000 bound — the loop emits the pending
chunk (here empty) and then keeps the whole oversized line as one
chunk. -/
theorem chunkCodeFile_single_line_counterexample :
    fileBig.content.length = 20000 ∧
    (chunkCodeFile fileBig 8000).length = 2 ∧
    ∃ f ∈ chunkCodeFile fileBig 8000, 8000 < f.content.length := by
  have hlen : fileBig.content.length = 20000 := by
    rw [show fileBig.content = List.replicate 20000 97 from rfl, List.length_replicate]
  have hnl : (10 : Nat) ∉ fileBig.content := by
    rw [show fileBig.content = List.replicate 20000 97 from rfl, List.mem_replicate]
    simp
  have hne : fileBig.content.isEmpty = false := by
    rw [List.isEmpty_eq_false]
    intro h0
    rw [h0] at hlen
    simp at hlen
  have hgt : (fileBig.content.isEmpty || decide (fileBig.content.length ≤ 8000)) = false := by
    rw [hne, hlen]
    rfl
  have hch : chunkCodeFile fileBig 8000 =
      chunkLines fileBig 8000 [fileBig.content] [] 0 := by
    unfold chunkCodeFile
    rw [hgt]
    simp only [Bool.false_eq_true, if_false]
    rw [splitNl_no_newline _ hnl]
  have hemp : (fileBig.content ++ [10]).isEmpty = false := by simp
  have hstep : chunkLines fileBig 8000 [fileBig.content] [] 0 =
      [{ fileBig with
          path := fileBig.path ++ "#chunk" ++ toString 0
          content := [] },
        { fileBig with
          path := fileBig.path ++ "#chunk" ++ toString 1
          content := fileBig.content ++ [10] }] := by
    have hcond1 : 8000 < List.length ([] : List Nat) + fileBig.content.length + 1 := by
      rw [hlen]
      norm_num
    have hcond2 : ¬ ((fileBig.content ++ [10]).isEmpty = true) := by
      rw [hemp]
      exact Bool.false_ne_true
    rw [chunkLines, if_pos hcond1, chunkLines, if_neg hcond2]
  refine ⟨hlen, ?_, ?_⟩
  · rw [hch, hstep]
    rfl
  · rw [hch, hstep]
    refine ⟨_, List.mem_cons_of_mem _ (List.mem_cons_self _ _), ?_⟩
    simp [hlen]

/-- Claim C6 as amended: a 20000-character file all of whose lines are
at most 100 characters is split by chunkCodeFile with maxChunkSize 8000
into exactly 3 chunks; every chunk holds at most 8000 characters; the
chunk paths are the original path suffixed with the chunk indices 0, 1,
2 in order, pairwise distinct; and the chunk contents concatenated in
output order equal the original content followed by one final newline,
so the original line order is preserved.  (The unrestricted claim fails:
see the single-line counterexample.) -/
theorem chunkCodeFile_20000_short_lines (file : CodeFile)
    (hlen : file.content.length = 20000)
    (hline : ∀ l ∈ splitNl file.content, l.length ≤ 100) :
    (chunkCodeFile file 8000).length = 3 ∧
    (∀ f ∈ chunkCodeFile file 8000, f.content.length ≤ 8000) ∧
    (chunkCodeFile file 8000).map (fun f => f.path) =
      [file.path ++ "#chunk" ++ toString 0, file.path ++ "#chunk" ++ toString 1,
        file.path ++ "#chunk" ++ toString 2] ∧
    ((chunkCodeFile file 8000).map (fun f => f.path)).Nodup ∧
    ((chunkCodeFile file 8000).map (fun f => f.content)).flatten =
      file.content ++ [10] := by
  have hne : file.content.isEmpty = false := by
    rw [List.isEmpty_eq_false]
    intro h0
    rw [h0] at hlen
    simp at hlen
  have hgt : ¬ file.content.length ≤ 8000 := by omega
  have hch : chunkCodeFile file 8000 =
      chunkLines file 8000 (splitNl file.content) [] 0 := by
    simp [chunkCodeFile, hne, hgt]
  have hflat : ((chunkCodeFile file 8000).map (fun f => f.content)).flatten =
      file.content ++ [10] := by
    rw [hch, chunkLines_flatten, splitNl_flatten]
    simp
  have hsum : ((chunkCodeFile file 8000).map (fun f => f.content.length)).sum = 20001 := by
    have h1 : (chunkCodeFile file 8000).map (fun f => f.content.length) =
        ((chunkCodeFile file 8000).map (fun f => f.content)).map List.length := by
      rw [List.map_map]
      rfl
    rw [h1, ← List.length_flatten, hflat]
    simp [hlen]
  have hub : ∀ f ∈ chunkCodeFile file 8000, f.content.length ≤ 8000 := by
    rw [hch]
    refine chunkLines_content_le file 8000 (splitNl file.content) [] 0 (by simp) ?_
    intro l hl
    have := hline l hl
    omega
  have hlb : ∀ f ∈ (chunkCodeFile file 8000).dropLast, 7900 ≤ f.content.length := by
    rw [hch]
    intro f hf
    have := chunkLines_dropLast_ge file 8000 100 (splitNl file.content) [] 0 hline f hf
    omega
  have hcount : (chunkCodeFile file 8000).length = 3 := by
    have hup : (20001 : Nat) ≤ (chunkCodeFile file 8000).length * 8000 := by
      rw [← hsum]
      have hb := list_sum_le ((chunkCodeFile file 8000).map (fun f => f.content.length)) 8000
        (fun x hx => by
          obtain ⟨f, hfmem, hfx⟩ := List.mem_map.1 hx
          rw [← hfx]
          exact hub f hfmem)
      simpa using hb
    have hdl : ((chunkCodeFile file 8000).length - 1) * 7900 ≤ 20001 := by
      have h1 : (((chunkCodeFile file 8000).dropLast.map (fun f => f.content.length))).sum ≤
          20001 := by
        rw [← hsum]
        exact sum_map_dropLast_le _ _
      have h2 := list_le_sum ((chunkCodeFile file 8000).dropLast.map
          (fun f => f.content.length)) 7900
        (fun x hx => by
          obtain ⟨f, hfmem, hfx⟩ := List.mem_map.1 hx
          rw [← hfx]
          exact hlb f hfmem)
      simp only [List.length_map, List.length_dropLast] at h2
      omega
    omega
  have hpaths : (chunkCodeFile file 8000).map (fun f => f.path) =
      [file.path ++ "#chunk" ++ toString 0, file.path ++ "#chunk" ++ toString 1,
        file.path ++ "#chunk" ++ toString 2] := by
    have hp := chunkLines_paths file 8000 (splitNl file.content) [] 0
    rw [← hch] at hp
    rw [hp, hcount]
    rfl
  have hnd : ((chunkCodeFile file 8000).map (fun f => f.path)).Nodup := by
    rw [hpaths]
    have h01 : (toString (0 : Nat) : String) ≠ toString 1 := by decide
    have h02 : (toString (0 : Nat) : String) ≠ toString 2 := by decide
    have h12 : (toString (1 : Nat) : String) ≠ toString 2 := by decide
    have hne01 := string_append_ne (file.path ++ "#chunk") h01
    have hne02 := string_append_ne (file.path ++ "#chunk") h02
    have hne12 := string_append_ne (file.path ++ "#chunk") h12
    simp [List.nodup_cons, hne01, hne02, hne12]
  exact ⟨hcount, hub, hpaths, hnd, hflat⟩

/-- splitNl of n newline-terminated copies of one line followed by a
final line. -/
theorem splitNl_blocks (n : Nat) (line last : List Nat)
    (hl : 10 ∉ line) (hlast : 10 ∉ last) :
    splitNl ((List.replicate n (line ++ [10])).flatten ++ last) =
      List.replicate n line ++ [last] := by
  induction n with
  | zero => simpa using splitNl_no_newline last hlast
  | succ k ih =>
    rw [List.replicate_succ, List.flatten_cons, List.append_assoc]
    have hstep : (line ++ [10]) ++
        ((List.replicate k (line ++ [10])).flatten ++ last) =
        line ++ 10 :: ((List.replicate k (line ++ [10])).flatten ++ last) := by
      simp
    rw [hstep, splitNl_append_newline _ _ hl, ih, List.replicate_succ, List.cons_append]

/-- Witness for the amended claim C6 at a concrete 20000-character file
consisting of 199 lines of 99 characters and one line of 100. -/
theorem chunkCodeFile_20000_short_lines_witness :
    (chunkCodeFile fileRep 8000).length = 3 ∧
    (∀ f ∈ chunkCodeFile fileRep 8000, f.content.length ≤ 8000) ∧
    (chunkCodeFile fileRep 8000).map (fun f => f.path) =
      [fileRep.path ++ "#chunk" ++ toString 0, fileRep.path ++ "#chunk" ++ toString 1,
        fileRep.path ++ "#chunk" ++ toString 2] ∧
    ((chunkCodeFile fileRep 8000).map (fun f => f.path)).Nodup ∧
    ((chunkCodeFile fileRep 8000).map (fun f => f.content)).flatten =
      fileRep.content ++ [10] := by
  have hcontent : fileRep.content =
      (List.replicate 199 (List.replicate 99 98 ++ [10])).flatten ++
        List.replicate 100 98 := rfl
  have hsplit : splitNl fileRep.content =
      List.replicate 199 (List.replicate 99 98) ++ [List.replicate 100 98] := by
    rw [hcontent]
    exact splitNl_blocks 199 _ _ (by simp [List.mem_replicate]) (by simp [List.mem_replicate])
  refine chunkCodeFile_20000_short_lines fileRep ?_ ?_
  · rw [hcontent]
    simp only [List.length_append, List.length_flatten, List.map_replicate,
      List.length_replicate, List.sum_replicate, smul_eq_mul, List.length_cons,
      List.length_nil]
    try norm_num
  · intro l hl
    rw [hsplit] at hl
    rcases List.mem_append.1 hl with h | h
    · rw [List.eq_of_mem_replicate h]
      simp
    · rw [List.mem_singleton.1 h]
      simp

end GitlabEmbedding
